import Mathlib

/-!
Verification of the content-aggregation and prompt-budgeting pipeline of the
code-review service: the GitHub URL parser, the remote file lister with its
blob / subpath / extension filters, the per-path content fetcher with its raw
fallback, the per-file head/tail truncator, and the aggregate bundle budgeter.

Strings of the source language are modelled as lists of Unicode scalar values
(`List Char`); UTF-8 byte counting mirrors `TextEncoder().encode(s).length`.
Remote responses (repository metadata, tree listing, contents API, raw
endpoint) are modelled by the payloads the handlers observe, so every handler
becomes a pure function of its inputs and of those payloads.
-/

namespace CodeAI

/-- UTF-8 byte width of one Unicode scalar value. -/
def charBytes (c : Char) : Nat :=
  if c.val < 0x80 then 1
  else if c.val < 0x800 then 2
  else if c.val < 0x10000 then 3
  else 4

/-- UTF-8 byte length of a string, as `bytes` in the analyze route computes it
via `TextEncoder`. -/
def bytes (s : List Char) : Nat :=
  (s.map charBytes).sum

/-- Aggregate prompt ceiling `MAX_TOTAL_BYTES` from the analyze route. -/
def MAX_TOTAL_BYTES : Nat := 200000

/-- Per-file ceiling `MAX_FILE_BYTES` from the analyze route. -/
def MAX_FILE_BYTES : Nat := 40000

/-- File-count cap `MAX_FILES` from the analyze route. -/
def MAX_FILES : Nat := 50

/-- The fixed elision marker inserted by `maybeTruncateContent`. -/
def marker : List Char :=
  ("\n/* ... truncated middle due to size limits ... */\n").toList

/-- Result record of `maybeTruncateContent`. -/
structure TruncResult where
  text : List Char
  truncated : Bool
deriving DecidableEq

/-- JS `s.slice(-n)` for a natural `n`: the last `n` characters, except that
`slice(-0)` is `slice(0)` and returns the whole string. -/
def jsSliceNeg (s : List Char) (n : Nat) : List Char :=
  if n = 0 then s else s.drop (s.length - n)

/-- `maybeTruncateContent` from the analyze route: within-limit content passes
through unchanged; otherwise the first `limit / 2` characters, the marker and
`content.slice(-(limit / 2))` are concatenated. -/
def maybeTruncateContent (content : List Char) (limit : Nat) : TruncResult :=
  if bytes content ≤ limit then ⟨content, false⟩
  else
    let half := limit / 2
    let head := content.take half
    let tail := jsSliceNeg content half
    ⟨head ++ marker ++ tail, true⟩

/-- The truncator as the spec words it: over-limit output is the first
`limit / 2` characters, the marker, and the LAST `limit / 2` characters
(so an empty tail when `limit / 2 = 0`). Kept for comparison with
`maybeTruncateContent`. -/
def maybeTruncateContentSpec (content : List Char) (limit : Nat) : TruncResult :=
  if bytes content ≤ limit then ⟨content, false⟩
  else
    let half := limit / 2
    ⟨content.take half ++ marker ++ content.drop (content.length - half), true⟩

/-- A (path, content) pair as the analyze route bundles them. -/
structure File where
  path : List Char
  content : List Char
deriving DecidableEq

/-- Summed UTF-8 byte length of the contents of a file list. -/
def bytesSum (fs : List File) : Nat :=
  (fs.map (fun f => bytes f.content)).sum

/-- The global size-cap loop of the analyze route: starting from a running
total, include each file only while the running total stays within
`MAX_TOTAL_BYTES`; on the first file that would exceed it, stop and raise the
truncation flag. Returns (bounded list, final total, flag raised here). -/
def budgetLoop : List File → Nat → List File × Nat × Bool
  | [], total => ([], total, false)
  | f :: rest, total =>
    let sz := bytes f.content
    if total + sz > MAX_TOTAL_BYTES then ([], total, true)
    else
      let r := budgetLoop rest (total + sz)
      (f :: r.1, r.2.1, r.2.2)

lemma bytesSum_nil : bytesSum [] = 0 := rfl

lemma bytesSum_cons (f : File) (fs : List File) :
    bytesSum (f :: fs) = bytes f.content + bytesSum fs := by
  simp [bytesSum]

/-- The bounded list is the prefix of the input of its own length. -/
lemma budgetLoop_take (fs : List File) (t : Nat) :
    (budgetLoop fs t).1 = fs.take (budgetLoop fs t).1.length := by
  induction fs generalizing t with
  | nil => simp [budgetLoop]
  | cons f rest ih =>
    by_cases h : t + bytes f.content > MAX_TOTAL_BYTES
    · simp [budgetLoop, h]
    · simp only [budgetLoop, if_neg h, List.length_cons, List.take_succ_cons,
        List.cons.injEq, true_and]
      exact ih (t + bytes f.content)

/-- The final total is the starting total plus the bytes of the bounded list. -/
lemma budgetLoop_total (fs : List File) (t : Nat) :
    (budgetLoop fs t).2.1 = t + bytesSum (budgetLoop fs t).1 := by
  induction fs generalizing t with
  | nil => simp [budgetLoop, bytesSum_nil]
  | cons f rest ih =>
    by_cases h : t + bytes f.content > MAX_TOTAL_BYTES
    · simp [budgetLoop, h, bytesSum_nil]
    · simp only [budgetLoop, if_neg h]
      rw [ih (t + bytes f.content), bytesSum_cons]
      omega

/-- The running total never leaves the ceiling once under it. -/
lemma budgetLoop_le (fs : List File) (t : Nat) (h : t ≤ MAX_TOTAL_BYTES) :
    (budgetLoop fs t).2.1 ≤ MAX_TOTAL_BYTES := by
  induction fs generalizing t with
  | nil => simpa [budgetLoop] using h
  | cons f rest ih =>
    by_cases hx : t + bytes f.content > MAX_TOTAL_BYTES
    · simpa [budgetLoop, hx] using h
    · simp only [budgetLoop, if_neg hx]
      exact ih (t + bytes f.content) (by omega)

/-- The truncation flag of the budget loop is raised exactly when some input
file was excluded. -/
lemma budgetLoop_flag (fs : List File) (t : Nat) :
    (budgetLoop fs t).2.2 = true ↔ (budgetLoop fs t).1.length < fs.length := by
  induction fs generalizing t with
  | nil => simp [budgetLoop]
  | cons f rest ih =>
    by_cases h : t + bytes f.content > MAX_TOTAL_BYTES
    · simp [budgetLoop, h]
    · simp only [budgetLoop, if_neg h, List.length_cons]
      rw [ih (t + bytes f.content)]
      omega

/-- Claim C1: the bundle budgeter run with ceiling 200,000 bytes returns a
prefix of its input in input order, the summed UTF-8 byte lengths of the
included contents never exceed the ceiling, and inclusion is prefix-closed:
a file is included only if every file before it is included. -/
theorem bundle_budgeter_prefix_C1 (files : List File) :
    (budgetLoop files 0).1 = files.take (budgetLoop files 0).1.length ∧
    bytesSum (budgetLoop files 0).1 ≤ 200000 ∧
    (∀ i j : Nat, j ≤ i → i < (budgetLoop files 0).1.length →
      j < (budgetLoop files 0).1.length) := by
  refine ⟨budgetLoop_take files 0, ?_, fun i j hji hi => lt_of_le_of_lt hji hi⟩
  have h1 := budgetLoop_le files 0 (by simp [MAX_TOTAL_BYTES])
  have h2 := budgetLoop_total files 0
  simp [MAX_TOTAL_BYTES] at h1
  omega

/-- The successful analyze response payload before the model call: the bounded
bundle and the reported metadata `totalBytes`, `truncated`, `fileCount`. -/
structure AnalyzeSuccess where
  bundle : List File
  totalBytes : Nat
  truncated : Bool
  fileCount : Nat
deriving DecidableEq

/-- The snippet-mode per-file pass: default an empty path to "snippet.ts",
truncate each content with the per-file ceiling, and accumulate the per-file
truncation flags into one boolean. -/
def snippetMapLoop : List File → List File × Bool
  | [] => ([], false)
  | f :: rest =>
    let r := maybeTruncateContent f.content MAX_FILE_BYTES
    let rec' := snippetMapLoop rest
    (⟨(if f.path = [] then ("snippet.ts").toList else f.path), r.text⟩ :: rec'.1,
      r.truncated || rec'.2)

/-- Snippet-mode analyze: cap at `MAX_FILES` files, per-file truncate, then
apply the global budget loop; report the bounded bundle, the total, the
combined truncation flag and the file count. -/
def analyzeSnippet (files : List File) : AnalyzeSuccess :=
  let pre := snippetMapLoop (files.take MAX_FILES)
  let b := budgetLoop pre.1 0
  ⟨b.1, b.2.1, pre.2 || b.2.2, b.1.length⟩

/-- The contents-API response for one path as the handler observes it:
`ok`/`status`/`body` from the HTTP layer; `content` is the decoded text when
the JSON carried a truthy `content` field (base64 decoding itself is a
platform primitive and is not remodelled); `base64` records whether the JSON
`encoding` field was exactly "base64". -/
structure ContentApiResp where
  ok : Bool
  status : Nat
  body : List Char
  content : Option (List Char)
  base64 : Bool

/-- The raw-endpoint fallback response for one path. -/
structure RawResp where
  ok : Bool
  text : List Char

/-- The raw-endpoint fallback of `ghGetContent`. -/
def rawFallback (path : List Char) (raw : RawResp) : Except (List Char) (List Char) :=
  if raw.ok = true then .ok raw.text
  else .error (("Failed to fetch raw content for ").toList ++ path)

/-- `ghGetContent` from the analyze route: a non-success contents-API response
is an error carrying status and body; a truthy base64 `content` is decoded and
returned; anything else falls back to the raw endpoint. -/
def ghGetContent (path : List Char) (api : ContentApiResp) (raw : RawResp) :
    Except (List Char) (List Char) :=
  if api.ok = false then
    .error (("GitHub content error ").toList ++ (Nat.repr api.status).toList
      ++ (": ").toList ++ api.body)
  else
    match api.content with
    | some c => if c ≠ [] ∧ api.base64 = true then .ok c else rawFallback path raw
    | none => rawFallback path raw

/-- The github-mode fetch loop: fetch each selected path in order, per-file
truncate it, and abort the whole request on the first fetch failure. -/
def githubFetchLoop : List (List Char) → (List Char → ContentApiResp × RawResp) →
    Except (List Char) (List File × Bool)
  | [], _ => .ok ([], false)
  | p :: rest, env =>
    match ghGetContent p (env p).1 (env p).2 with
    | .error e => .error e
    | .ok raw =>
      let r := maybeTruncateContent raw MAX_FILE_BYTES
      match githubFetchLoop rest env with
      | .error e => .error e
      | .ok (fs, b) => .ok (⟨p, r.text⟩ :: fs, r.truncated || b)

/-- Github-mode analyze: cap the requested paths at `MAX_FILES`, run the fetch
loop against the remote responses `env`, then apply the global budget loop. -/
def analyzeGithub (paths : List (List Char))
    (env : List Char → ContentApiResp × RawResp) :
    Except (List Char) AnalyzeSuccess :=
  match githubFetchLoop (paths.take MAX_FILES) env with
  | .error e => .error e
  | .ok (fs, anyT) =>
    let b := budgetLoop fs 0
    .ok ⟨b.1, b.2.1, anyT || b.2.2, b.1.length⟩

/-- A path's fetch fails: the contents API answered non-success, or it did not
provide truthy base64 content and the raw fallback answered non-success. -/
def fetchFailed (api : ContentApiResp) (raw : RawResp) : Prop :=
  api.ok = false ∨
    ((∀ c, api.content = some c → (c = [] ∨ api.base64 = false)) ∧ raw.ok = false)

/-- Witness for C1 at a one-file input. -/
theorem bundle_budgeter_prefix_C1_witness :
    (budgetLoop [⟨("a").toList, ("x").toList⟩] 0).1 =
      [⟨("a").toList, ("x").toList⟩].take
        (budgetLoop [⟨("a").toList, ("x").toList⟩] 0).1.length ∧
    bytesSum (budgetLoop [⟨("a").toList, ("x").toList⟩] 0).1 ≤ 200000 ∧
    (0 : Nat) < (budgetLoop [⟨("a").toList, ("x").toList⟩] 0).1.length := by
  have h := bundle_budgeter_prefix_C1 [⟨("a").toList, ("x").toList⟩]
  exact ⟨h.1, h.2.1, h.2.2 0 0 (le_refl 0) (by decide)⟩

/-- Claim C2 counterexample: at limit 0 (so `limit / 2 = 0`) the code returns
the WHOLE over-limit content after the marker — JS `slice(-0)` is `slice(0)` —
while the claim's "last `floor(limit/2)` characters" would be empty. -/
theorem content_truncator_C2_cex :
    0 < bytes (("a").toList) ∧
    maybeTruncateContent (("a").toList) 0 ≠ maybeTruncateContentSpec (("a").toList) 0 ∧
    (maybeTruncateContent (("a").toList) 0).text = marker ++ ("a").toList ∧
    (maybeTruncateContentSpec (("a").toList) 0).text = marker := by
  refine ⟨by decide, by decide, ?_, ?_⟩ <;> rfl

/-- Claim C2 as amended: within-limit content passes through unchanged with
`truncated = false`; over-limit content yields `truncated = true` and the
concatenation of the first `limit / 2` characters, the fixed elision marker,
and — when `limit / 2 > 0` — the last `limit / 2` characters (when
`limit / 2 = 0` the entire content follows the marker, as JS `slice(-0)`
returns the whole string); the over-limit output always contains the elision
marker. -/
theorem content_truncator_C2 (content : List Char) (limit : Nat) :
    (bytes content ≤ limit → maybeTruncateContent content limit = ⟨content, false⟩) ∧
    (limit < bytes content →
      (maybeTruncateContent content limit).truncated = true ∧
      (maybeTruncateContent content limit).text =
        content.take (limit / 2) ++ marker ++
          (if limit / 2 = 0 then content
           else content.drop (content.length - limit / 2)) ∧
      ∃ l r, (maybeTruncateContent content limit).text = l ++ marker ++ r) := by
  constructor
  · intro h
    simp [maybeTruncateContent, h]
  · intro h
    have h' : ¬ bytes content ≤ limit := by omega
    refine ⟨by simp [maybeTruncateContent, h'], ?_, ?_⟩
    · simp [maybeTruncateContent, h', jsSliceNeg]
    · exact ⟨content.take (limit / 2), jsSliceNeg content (limit / 2),
        by simp [maybeTruncateContent, h']⟩

/-- Witness for C2: a 2-byte string under a 10-byte limit passes through, and
the 6-byte string "abcdef" over a 4-byte limit is truncated with the marker in
its output. -/
theorem content_truncator_C2_witness :
    maybeTruncateContent (("xy").toList) 10 = ⟨("xy").toList, false⟩ ∧
    (maybeTruncateContent (("abcdef").toList) 4).truncated = true ∧
    ∃ l r, (maybeTruncateContent (("abcdef").toList) 4).text = l ++ marker ++ r :=
  ⟨(content_truncator_C2 (("xy").toList) 10).1 (by decide),
   ((content_truncator_C2 (("abcdef").toList) 4).2 (by decide)).1,
   ((content_truncator_C2 (("abcdef").toList) 4).2 (by decide)).2.2⟩

lemma snippetMapLoop_len (fs : List File) :
    (snippetMapLoop fs).1.length = fs.length := by
  induction fs with
  | nil => simp [snippetMapLoop]
  | cons f rest ih => simp [snippetMapLoop, ih]

/-- The snippet pass raises its flag exactly when some input file's content is
per-file truncated. -/
lemma snippetMapLoop_flag (fs : List File) :
    (snippetMapLoop fs).2 = true ↔
      ∃ f ∈ fs, (maybeTruncateContent f.content MAX_FILE_BYTES).truncated = true := by
  induction fs with
  | nil => simp [snippetMapLoop]
  | cons f rest ih =>
    simp only [snippetMapLoop, Bool.or_eq_true, ih, List.mem_cons]
    constructor
    · rintro (h | ⟨g, hg, hgt⟩)
      · exact ⟨f, Or.inl rfl, h⟩
      · exact ⟨g, Or.inr hg, hgt⟩
    · rintro ⟨g, (rfl | hg), hgt⟩
      · exact Or.inl hgt
      · exact Or.inr ⟨g, hg, hgt⟩

/-- A successful github fetch loop yields one bundled file per path and raises
its flag exactly when some fetched content was per-file truncated. -/
lemma githubFetchLoop_ok (ps : List (List Char))
    (env : List Char → ContentApiResp × RawResp) (fs : List File) (b : Bool)
    (h : githubFetchLoop ps env = .ok (fs, b)) :
    fs.length = ps.length ∧
    (b = true ↔ ∃ p ∈ ps, ∃ raw, ghGetContent p (env p).1 (env p).2 = .ok raw ∧
      (maybeTruncateContent raw MAX_FILE_BYTES).truncated = true) := by
  induction ps generalizing fs b with
  | nil =>
    simp only [githubFetchLoop] at h
    injection h with h2
    rw [Prod.ext_iff] at h2
    obtain ⟨h3, h4⟩ := h2
    subst h3
    subst h4
    simp
  | cons p rest ih =>
    cases hg : ghGetContent p (env p).1 (env p).2 with
    | error e => simp [githubFetchLoop, hg] at h
    | ok raw =>
      cases hr : githubFetchLoop rest env with
      | error e => simp [githubFetchLoop, hg, hr] at h
      | ok pr =>
        obtain ⟨fs', b'⟩ := pr
        obtain ⟨hl, hfl⟩ := ih fs' b' hr
        simp only [githubFetchLoop, hg, hr] at h
        injection h with h2
        rw [Prod.ext_iff] at h2
        obtain ⟨h3, h4⟩ := h2
        subst h3
        subst h4
        constructor
        · simp [hl]
        · rw [Bool.or_eq_true, hfl]
          constructor
          · rintro (hT | ⟨q, hq, raw', hraw', ht⟩)
            · exact ⟨p, List.mem_cons_self p rest, raw, hg, hT⟩
            · exact ⟨q, List.mem_cons_of_mem _ hq, raw', hraw', ht⟩
          · rintro ⟨q, hq, raw', hraw', ht⟩
            rcases List.mem_cons.mp hq with rfl | hq'
            · left
              rw [hg] at hraw'
              cases hraw'
              exact ht
            · right
              exact ⟨q, hq', raw', hraw', ht⟩

/-- Claim C3: for every analyze request that succeeds (either mode), the
reported totalBytes equals the sum of the UTF-8 byte lengths of the bundled
contents and never exceeds the 200,000-byte aggregate ceiling, and the
reported truncated flag is true iff at least one considered file's content was
per-file truncated or at least one file was excluded by the budgeter. -/
theorem totals_invariant_C3 (files : List File) (paths : List (List Char))
    (env : List Char → ContentApiResp × RawResp) :
    ((analyzeSnippet files).totalBytes = bytesSum (analyzeSnippet files).bundle ∧
     (analyzeSnippet files).totalBytes ≤ 200000 ∧
     ((analyzeSnippet files).truncated = true ↔
       (∃ f ∈ files.take MAX_FILES,
         (maybeTruncateContent f.content MAX_FILE_BYTES).truncated = true) ∨
       (analyzeSnippet files).bundle.length < (files.take MAX_FILES).length)) ∧
    (∀ out, analyzeGithub paths env = .ok out →
      out.totalBytes = bytesSum out.bundle ∧
      out.totalBytes ≤ 200000 ∧
      (out.truncated = true ↔
        (∃ p ∈ paths.take MAX_FILES, ∃ raw,
          ghGetContent p (env p).1 (env p).2 = .ok raw ∧
          (maybeTruncateContent raw MAX_FILE_BYTES).truncated = true) ∨
        out.bundle.length < (paths.take MAX_FILES).length)) := by
  constructor
  · have ht := budgetLoop_total (snippetMapLoop (files.take MAX_FILES)).1 0
    have hle := budgetLoop_le (snippetMapLoop (files.take MAX_FILES)).1 0
      (by simp [MAX_TOTAL_BYTES])
    have hflag := budgetLoop_flag (snippetMapLoop (files.take MAX_FILES)).1 0
    have hsl := snippetMapLoop_len (files.take MAX_FILES)
    have hsf := snippetMapLoop_flag (files.take MAX_FILES)
    refine ⟨?_, ?_, ?_⟩
    · simp only [analyzeSnippet]
      omega
    · simp only [analyzeSnippet]
      simpa [MAX_TOTAL_BYTES] using hle
    · simp only [analyzeSnippet, Bool.or_eq_true]
      rw [hsf, hflag, hsl]
  · intro out hout
    cases hfl : githubFetchLoop (paths.take MAX_FILES) env with
    | error e => simp [analyzeGithub, hfl] at hout
    | ok pr =>
      obtain ⟨fs, anyT⟩ := pr
      obtain ⟨hlen, hany⟩ := githubFetchLoop_ok _ env fs anyT hfl
      simp only [analyzeGithub, hfl] at hout
      injection hout with h2
      subst h2
      have ht := budgetLoop_total fs 0
      have hle := budgetLoop_le fs 0 (by simp [MAX_TOTAL_BYTES])
      have hflag := budgetLoop_flag fs 0
      refine ⟨?_, ?_, ?_⟩
      · show (budgetLoop fs 0).2.1 = bytesSum (budgetLoop fs 0).1
        omega
      · show (budgetLoop fs 0).2.1 ≤ 200000
        simpa [MAX_TOTAL_BYTES] using hle
      · show (anyT || (budgetLoop fs 0).2.2) = true ↔ _
        simp only [Bool.or_eq_true]
        rw [hany, hflag, hlen]

/-- Sample remote environment in which every fetch succeeds with content
"x". -/
def envOkSample : List Char → ContentApiResp × RawResp :=
  fun _ => (⟨true, 200, [], some (("x").toList), true⟩, ⟨true, []⟩)

/-- Sample remote environment in which the contents API always answers 404. -/
def envBadSample : List Char → ContentApiResp × RawResp :=
  fun _ => (⟨false, 404, ("Not Found").toList, none, false⟩, ⟨true, []⟩)

/-- Witness for C3 at a one-file snippet request and a one-path github
request. -/
theorem totals_invariant_C3_witness :
    ((analyzeSnippet [⟨("a.ts").toList, ("x").toList⟩]).totalBytes =
      bytesSum (analyzeSnippet [⟨("a.ts").toList, ("x").toList⟩]).bundle) ∧
    ∃ out, analyzeGithub [("a").toList] envOkSample = .ok out ∧
      out.totalBytes = bytesSum out.bundle ∧ out.totalBytes ≤ 200000 := by
  have hg := (totals_invariant_C3 [] [("a").toList] envOkSample).2
    (⟨[⟨("a").toList, ("x").toList⟩], 1, false, 1⟩ : AnalyzeSuccess) rfl
  exact ⟨(totals_invariant_C3 [⟨("a.ts").toList, ("x").toList⟩] [] envOkSample).1.1,
    ⟨[⟨("a").toList, ("x").toList⟩], 1, false, 1⟩, rfl, hg.1, hg.2.1⟩

/-- The github fetch loop consults the remote only at the listed paths. -/
lemma githubFetchLoop_congr (ps : List (List Char))
    (env env2 : List Char → ContentApiResp × RawResp)
    (h : ∀ p ∈ ps, env p = env2 p) :
    githubFetchLoop ps env = githubFetchLoop ps env2 := by
  induction ps with
  | nil => rfl
  | cons p rest ih =>
    have hp := h p (List.mem_cons_self p rest)
    have ih' := ih (fun q hq => h q (List.mem_cons_of_mem _ hq))
    simp only [githubFetchLoop, hp, ih']

/-- Claim C6: at most the first 50 files are considered. In snippet mode the
analysis of a list equals the analysis of its first-50 prefix; in github mode
the result depends on the remote only through the first 50 paths (paths beyond
the 50th are never fetched); 60 submitted paths select exactly 50. -/
theorem file_cap_C6 (files : List File) (paths : List (List Char))
    (env env2 : List Char → ContentApiResp × RawResp)
    (h : ∀ p ∈ paths.take MAX_FILES, env p = env2 p) :
    analyzeSnippet files = analyzeSnippet (files.take MAX_FILES) ∧
    analyzeGithub paths env = analyzeGithub paths env2 ∧
    (paths.length = 60 → (paths.take MAX_FILES).length = 50) := by
  refine ⟨?_, ?_, ?_⟩
  · simp [analyzeSnippet, List.take_take]
  · simp only [analyzeGithub, githubFetchLoop_congr _ env env2 h]
  · intro h60
    simp [List.length_take, h60, MAX_FILES]

/-- Witness for C6: the empty snippet list and 60 identical github paths. -/
theorem file_cap_C6_witness :
    analyzeSnippet [] = analyzeSnippet (([] : List File).take MAX_FILES) ∧
    analyzeGithub (List.replicate 60 (("p").toList)) envOkSample =
      analyzeGithub (List.replicate 60 (("p").toList)) envOkSample ∧
    ((List.replicate 60 (("p").toList)).take MAX_FILES).length = 50 := by
  have h := file_cap_C6 [] (List.replicate 60 (("p").toList)) envOkSample envOkSample
    (fun _ _ => rfl)
  exact ⟨h.1, h.2.1, h.2.2 (by simp)⟩

/-- A failed fetch makes `ghGetContent` fail. -/
lemma ghGetContent_err (path : List Char) (api : ContentApiResp) (raw : RawResp)
    (h : fetchFailed api raw) : ∃ e, ghGetContent path api raw = .error e := by
  rcases h with h | ⟨hc, hraw⟩
  · refine ⟨("GitHub content error ").toList ++ (Nat.repr api.status).toList
      ++ (": ").toList ++ api.body, ?_⟩
    simp [ghGetContent, h]
  · by_cases hok : api.ok = false
    · refine ⟨("GitHub content error ").toList ++ (Nat.repr api.status).toList
        ++ (": ").toList ++ api.body, ?_⟩
      simp [ghGetContent, hok]
    · refine ⟨("Failed to fetch raw content for ").toList ++ path, ?_⟩
      cases hcc : api.content with
      | none => simp [ghGetContent, hok, hcc, rawFallback, hraw]
      | some c =>
        have hcond : ¬ (c ≠ [] ∧ api.base64 = true) := by
          rcases hc c hcc with h1 | h1 <;> simp [h1]
        simp [ghGetContent, hok, hcc, hcond, rawFallback, hraw]

/-- A failed fetch anywhere in the list makes the whole fetch loop fail. -/
lemma githubFetchLoop_err (ps : List (List Char))
    (env : List Char → ContentApiResp × RawResp)
    (h : ∃ p ∈ ps, fetchFailed (env p).1 (env p).2) :
    ∃ e, githubFetchLoop ps env = .error e := by
  induction ps with
  | nil => simp at h
  | cons p rest ih =>
    rcases h with ⟨q, hq, hfail⟩
    rcases List.mem_cons.mp hq with rfl | hq'
    · obtain ⟨e, he⟩ := ghGetContent_err q (env q).1 (env q).2 hfail
      exact ⟨e, by simp [githubFetchLoop, he]⟩
    · cases hg : ghGetContent p (env p).1 (env p).2 with
      | error e => exact ⟨e, by simp [githubFetchLoop, hg]⟩
      | ok raw =>
        obtain ⟨e, he⟩ := ih ⟨q, hq', hfail⟩
        exact ⟨e, by simp [githubFetchLoop, hg, he]⟩

/-- Claim C9: in a github-mode request, if fetching any one of the selected
paths fails (non-success metadata response, or non-base64 content whose raw
fallback also fails), the entire request fails with an error and no bundle or
success payload is produced. -/
theorem github_fetch_abort_C9 (paths : List (List Char))
    (env : List Char → ContentApiResp × RawResp)
    (h : ∃ p ∈ paths.take MAX_FILES, fetchFailed (env p).1 (env p).2) :
    ∃ e, analyzeGithub paths env = .error e := by
  obtain ⟨e, he⟩ := githubFetchLoop_err _ env h
  exact ⟨e, by simp [analyzeGithub, he]⟩

/-- Witness for C9: a single path whose metadata endpoint answers 404. -/
theorem github_fetch_abort_C9_witness :
    ∃ e, analyzeGithub [("a").toList] envBadSample = .error e :=
  github_fetch_abort_C9 [("a").toList] envBadSample
    ⟨("a").toList, by decide, Or.inl rfl⟩

/-- JS `s.split(sep)` for a one-character separator: the list of chunks
between separators, keeping empty chunks (so a leading separator yields a
leading empty chunk, and the empty string splits to one empty chunk). -/
def splitOnChar (sep : Char) : List Char → List (List Char)
  | [] => [[]]
  | c :: rest =>
    match splitOnChar sep rest with
    | s :: ss => if c = sep then [] :: s :: ss else (c :: s) :: ss
    | [] => [[c]]

/-- `u.pathname.split("/").filter(Boolean)`: the non-empty path segments. -/
def segsOf (pathname : List Char) : List (List Char) :=
  (splitOnChar '/' pathname).filter (fun s => decide (s ≠ []))

/-- JS `parts.join("/")`. -/
def joinSlash : List (List Char) → List Char
  | [] => []
  | [s] => s
  | s :: s2 :: rest => s ++ '/' :: joinSlash (s2 :: rest)

/-- The structured reference returned by `parseGitHubUrl`: `ref` is absent when
the URL had no fourth segment after a `tree`/`blob` marker, `path` is absent
when there was no marker at all. -/
structure RepoRef where
  owner : List Char
  repo : List Char
  ref : Option (List Char)
  path : Option (List Char)
deriving DecidableEq

/-- The outcome of the platform URL constructor on the input string: either it
throws (not a well-formed URL) or it yields a hostname and a pathname. URL
syntax itself is a platform primitive and is not remodelled. -/
inductive UrlInput where
  | malformed
  | parsed (hostname pathname : List Char)

/-- The segment-level part of `parseGitHubUrl`: fewer than two non-empty
segments is an error; a third segment equal to "tree" or "blob" makes the
fourth segment the ref and the rest, joined by "/", the path. -/
def parseSegs : List (List Char) → Except (List Char) RepoRef
  | owner :: repo :: rest =>
    if rest.head? = some (("tree").toList) ∨ rest.head? = some (("blob").toList) then
      .ok ⟨owner, repo, rest.get? 1, some (joinSlash (rest.drop 2))⟩
    else
      .ok ⟨owner, repo, none, none⟩
  | _ => .error (("Invalid repository URL").toList)

/-- `parseGitHubUrl` from the list-files route: a malformed URL or a host
other than github.com is an input error; otherwise the non-empty path
segments are interpreted by `parseSegs`. -/
def parseGitHubUrl : UrlInput → Except (List Char) RepoRef
  | .malformed => .error (("Invalid URL").toList)
  | .parsed host pathname =>
    if host = ("github.com").toList then parseSegs (segsOf pathname)
    else .error (("Only github.com links are supported").toList)

/-- One entry of the recursive git tree listing. -/
structure TreeEntry where
  path : List Char
  type : List Char
deriving DecidableEq

/-- The remote payloads the list-files handler observes: the repository
metadata's default branch and the recursive tree listing. -/
structure GhData where
  default_branch : List Char
  tree : List TreeEntry
deriving DecidableEq

/-- Blob-type entries of the tree listing, as paths, in listing order. -/
def blobPaths (tree : List TreeEntry) : List (List Char) :=
  (tree.filter (fun t => decide (t.type = ("blob").toList))).map TreeEntry.path

/-- Normalize a subpath to end with "/" before prefix comparison. -/
def normSlash (rp : List Char) : List Char :=
  if rp.getLast? = some '/' then rp else rp ++ ['/']

/-- The subpath filter of the list-files handler: applied only when the parsed
reference carries a non-empty path (JS truthiness of `rootPath &&
rootPath.length`). -/
def subpathStage (rootPath : Option (List Char)) (fs : List (List Char)) :
    List (List Char) :=
  match rootPath with
  | some rp =>
    if rp = [] then fs
    else fs.filter (fun p => (normSlash rp).isPrefixOf p)
  | none => fs

/-- The suffix of a path from its last "." inclusive, when a "." occurs
(JS `p.slice(p.lastIndexOf("."))`). -/
def extSuffix : List Char → Option (List Char)
  | [] => none
  | c :: rest =>
    match extSuffix rest with
    | some e => some e
    | none => if c = '.' then some (c :: rest) else none

/-- The extension denylist of the list-files handler. -/
def skipExt : List (List Char) :=
  [(".png").toList, (".jpg").toList, (".jpeg").toList, (".gif").toList,
   (".webp").toList, (".svg").toList, (".ico").toList, (".pdf").toList,
   (".zip").toList, (".gz").toList, (".mp4").toList, (".mp3").toList,
   (".mov").toList, (".ogg").toList, (".ogv").toList, (".webm").toList,
   (".glb").toList, (".gltf").toList]

/-- Keep a path unless its lower-cased extension is denylisted; paths without
a "." are always kept. -/
def keepFile (p : List Char) : Bool :=
  match extSuffix p with
  | none => true
  | some e => !(decide ((e.map Char.toLower) ∈ skipExt))

/-- The extension-filter stage of the list-files handler. -/
def extFilter (fs : List (List Char)) : List (List Char) :=
  fs.filter keepFile

/-- Whether `needle` occurs as a contiguous substring of `hay`. -/
def hasSub (needle hay : List Char) : Bool :=
  (List.range (hay.length + 1)).any (fun i => needle.isPrefixOf (hay.drop i))

/-- The successful list-files response payload. -/
structure ListResult where
  owner : List Char
  repo : List Char
  ref : List Char
  rootPath : Option (List Char)
  files : List (List Char)
deriving DecidableEq

/-- The list-files handler on a request URL and the observed remote payloads:
parse the URL, resolve a falsy ref (absent or empty) to the default branch,
keep blob paths, apply the subpath filter and then the extension filter. -/
def listFiles (url : UrlInput) (remote : GhData) : Except (List Char) ListResult :=
  match parseGitHubUrl url with
  | .error e => .error e
  | .ok rr =>
    let ref := match rr.ref with
      | some s => if s = [] then remote.default_branch else s
      | none => remote.default_branch
    let files := extFilter (subpathStage rr.path (blobPaths remote.tree))
    .ok ⟨rr.owner, rr.repo, ref, rr.path, files⟩

/-- Claim C4: on a github.com URL with at least two non-empty path segments,
a third segment that is not "tree"/"blob" (or is absent) yields owner and repo
with ref and path both absent; a third segment "tree" or "blob" makes the
fourth segment the ref and the remaining segments, joined by "/", the path; in
particular `.../tree/<ref>/<a>/<b>` yields `ref=<ref>` and `path="<a>/<b>"`. -/
theorem repo_url_parser_C4 (pathname owner repo : List Char)
    (rest : List (List Char))
    (hs : segsOf pathname = owner :: repo :: rest) :
    ((rest.head? ≠ some (("tree").toList) ∧ rest.head? ≠ some (("blob").toList)) →
      parseGitHubUrl (.parsed (("github.com").toList) pathname) =
        .ok ⟨owner, repo, none, none⟩) ∧
    (∀ tok ref rest2, (tok = ("tree").toList ∨ tok = ("blob").toList) →
      rest = tok :: ref :: rest2 →
      parseGitHubUrl (.parsed (("github.com").toList) pathname) =
        .ok ⟨owner, repo, some ref, some (joinSlash rest2)⟩) ∧
    (∀ ref a b, rest = [("tree").toList, ref, a, b] →
      parseGitHubUrl (.parsed (("github.com").toList) pathname) =
        .ok ⟨owner, repo, some ref, some (a ++ '/' :: b)⟩) := by
  have hu : parseGitHubUrl (.parsed (("github.com").toList) pathname) =
      parseSegs (owner :: repo :: rest) := by
    simp [parseGitHubUrl, hs]
  refine ⟨?_, ?_, ?_⟩
  · rintro ⟨h1, h2⟩
    rw [hu]
    simp only [parseSegs]
    rw [if_neg]
    rintro (hc | hc)
    · exact h1 (by simpa using hc)
    · exact h2 (by simpa using hc)
  · rintro tok ref rest2 htok rfl
    rw [hu]
    rcases htok with rfl | rfl <;> simp [parseSegs]
  · rintro ref a b rfl
    rw [hu]
    simp [parseSegs, joinSlash]

/-- Witness for C4: a plain repository URL and a tree URL with a two-segment
subpath. -/
theorem repo_url_parser_C4_witness :
    parseGitHubUrl (.parsed (("github.com").toList) (("/o/r").toList)) =
      .ok ⟨("o").toList, ("r").toList, none, none⟩ ∧
    parseGitHubUrl (.parsed (("github.com").toList)
        (("/o/r/tree/main/a/b").toList)) =
      .ok ⟨("o").toList, ("r").toList, some (("main").toList),
        some (("a").toList ++ '/' :: ("b").toList)⟩ := by
  constructor
  · exact (repo_url_parser_C4 (("/o/r").toList) (("o").toList) (("r").toList) []
      (by decide)).1 (by decide)
  · exact (repo_url_parser_C4 (("/o/r/tree/main/a/b").toList) (("o").toList)
      (("r").toList)
      [("tree").toList, ("main").toList, ("a").toList, ("b").toList]
      (by decide)).2.2 (("main").toList) (("a").toList) (("b").toList) rfl

/-- Claim C5 counterexample: the error produced for the gitlab.com URL says
"Only github.com links are supported"; it does not name the unsupported host
"gitlab.com" anywhere in its text. -/
theorem url_errors_C5_cex :
    listFiles (.parsed (("gitlab.com").toList) (("/x/y").toList))
        ⟨("main").toList, []⟩ =
      .error (("Only github.com links are supported").toList) ∧
    hasSub (("gitlab.com").toList)
      (("Only github.com links are supported").toList) = false :=
  ⟨rfl, by decide⟩

/-- Claim C5 as amended: a malformed URL, a host other than github.com, or
fewer than two non-empty path segments each make parsing fail with an input
error rather than return a reference; in particular the gitlab.com list-files
request fails with the input error stating that only github.com links are
supported (the message names the supported host, not the submitted one). -/
theorem url_errors_C5 (host pathname : List Char) (remote : GhData) :
    (∃ e, parseGitHubUrl .malformed = .error e) ∧
    (host ≠ ("github.com").toList →
      parseGitHubUrl (.parsed host pathname) =
        .error (("Only github.com links are supported").toList)) ∧
    ((segsOf pathname).length < 2 →
      ∃ e, parseGitHubUrl (.parsed (("github.com").toList) pathname) = .error e) ∧
    (listFiles (.parsed (("gitlab.com").toList) (("/x/y").toList)) remote =
      .error (("Only github.com links are supported").toList)) := by
  refine ⟨⟨("Invalid URL").toList, rfl⟩, ?_, ?_, rfl⟩
  · intro h
    simp only [parseGitHubUrl]
    rw [if_neg h]
  · intro h
    refine ⟨("Invalid repository URL").toList, ?_⟩
    simp only [parseGitHubUrl, if_pos rfl]
    cases hsg : segsOf pathname with
    | nil => simp [parseSegs]
    | cons a tl =>
      cases tl with
      | nil => simp [parseSegs]
      | cons b tl2 =>
        rw [hsg] at h
        simp only [List.length_cons] at h
        omega

/-- Witness for C5: a wrong host and a one-segment path. -/
theorem url_errors_C5_witness :
    parseGitHubUrl (.parsed (("gitlab.com").toList) (("/x/y").toList)) =
      .error (("Only github.com links are supported").toList) ∧
    (∃ e, parseGitHubUrl (.parsed (("github.com").toList) (("/solo").toList)) =
      .error e) := by
  have h := url_errors_C5 (("gitlab.com").toList) (("/solo").toList)
    ⟨("main").toList, []⟩
  exact ⟨(url_errors_C5 (("gitlab.com").toList) (("/x/y").toList)
      ⟨("main").toList, []⟩).2.1 (by decide),
    h.2.2.1 (by decide)⟩

/-- Claim C7: a path whose extension (the substring from its last ".",
lower-cased) is denylisted never appears in the filtered output, and a path
with no "." passes the extension filter and is retained. -/
theorem extension_filter_C7 (paths : List (List Char)) (p : List Char)
    (hp : p ∈ paths) :
    ((∃ e, extSuffix p = some e ∧ (e.map Char.toLower) ∈ skipExt) →
      p ∉ extFilter paths) ∧
    (extSuffix p = none → p ∈ extFilter paths) := by
  constructor
  · rintro ⟨e, he, hmem⟩ hin
    simp only [extFilter] at hin
    have h2 := (List.mem_filter.mp hin).2
    simp [keepFile, he, hmem] at h2
  · intro he
    simp only [extFilter]
    exact List.mem_filter.mpr ⟨hp, by simp [keepFile, he]⟩

/-- Witness for C7: ".PNG" is excluded case-insensitively, an extensionless
path is retained. -/
theorem extension_filter_C7_witness :
    (("a.PNG").toList ∉ extFilter [("a.PNG").toList, ("Makefile").toList]) ∧
    (("Makefile").toList ∈ extFilter [("a.PNG").toList, ("Makefile").toList]) := by
  constructor
  · exact (extension_filter_C7 [("a.PNG").toList, ("Makefile").toList]
      (("a.PNG").toList) (by decide)).1 ⟨(".PNG").toList, by decide, by decide⟩
  · exact (extension_filter_C7 [("a.PNG").toList, ("Makefile").toList]
      (("Makefile").toList) (by decide)).2 (by decide)

/-- Claim C8: only blob-type tree entries are retained, and under a non-empty
subpath exactly the blob paths starting with the subpath normalized to end in
"/" survive, in listing order (the stage's output is a sublist of the listing
order). -/
theorem blob_subpath_filter_C8 (tree : List TreeEntry) (rp : List Char)
    (h : rp ≠ []) :
    (∀ p, p ∈ subpathStage (some rp) (blobPaths tree) ↔
      ((normSlash rp).isPrefixOf p = true ∧
        ∃ t ∈ tree, t.type = ("blob").toList ∧ t.path = p)) ∧
    List.Sublist (subpathStage (some rp) (blobPaths tree))
      (tree.map TreeEntry.path) := by
  have hstage : subpathStage (some rp) (blobPaths tree) =
      (blobPaths tree).filter (fun p => (normSlash rp).isPrefixOf p) := by
    simp [subpathStage, h]
  rw [hstage]
  constructor
  · intro p
    simp only [List.mem_filter, blobPaths, List.mem_map, decide_eq_true_eq]
    tauto
  · have h2 : List.Sublist (blobPaths tree) (tree.map TreeEntry.path) :=
      List.Sublist.map TreeEntry.path (List.filter_sublist _)
    exact (List.filter_sublist _).trans h2

/-- Witness for C8 on a three-entry tree with subpath "src". -/
theorem blob_subpath_filter_C8_witness :
    (("src/a.ts").toList ∈ subpathStage (some (("src").toList))
      (blobPaths [⟨("src/a.ts").toList, ("blob").toList⟩,
        ⟨("src").toList, ("tree").toList⟩,
        ⟨("b.ts").toList, ("blob").toList⟩])) ∧
    List.Sublist (subpathStage (some (("src").toList))
      (blobPaths [⟨("src/a.ts").toList, ("blob").toList⟩,
        ⟨("src").toList, ("tree").toList⟩,
        ⟨("b.ts").toList, ("blob").toList⟩]))
      ([⟨("src/a.ts").toList, ("blob").toList⟩,
        ⟨("src").toList, ("tree").toList⟩,
        ⟨("b.ts").toList, ("blob").toList⟩].map TreeEntry.path) := by
  have h := blob_subpath_filter_C8
    [⟨("src/a.ts").toList, ("blob").toList⟩,
     ⟨("src").toList, ("tree").toList⟩,
     ⟨("b.ts").toList, ("blob").toList⟩] (("src").toList) (by decide)
  refine ⟨(h.1 (("src/a.ts").toList)).mpr ⟨by decide, ?_⟩, h.2⟩
  exact ⟨⟨("src/a.ts").toList, ("blob").toList⟩, by decide, rfl, rfl⟩

lemma mem_segsOf_ne_nil (pathname s : List Char) (h : s ∈ segsOf pathname) :
    s ≠ [] := by
  simp only [segsOf] at h
  have h2 := (List.mem_filter.mp h).2
  simpa using h2

/-- Claim C10: a `.../tree/<ref>` or `.../blob/<ref>` URL with nothing after
the ref parses to a present but empty path, and the lister then applies no
subpath filtering, returning every blob path that passes the extension
filter; a bare `.../tree` or `.../blob` URL parses to an absent ref and an
empty path, and the lister resolves the ref to the default branch. -/
theorem tree_edge_cases_C10 (pathname o r ref tok : List Char) (remote : GhData)
    (htok : tok = ("tree").toList ∨ tok = ("blob").toList) :
    (segsOf pathname = [o, r, tok, ref] →
      parseGitHubUrl (.parsed (("github.com").toList) pathname) =
        .ok ⟨o, r, some ref, some []⟩ ∧
      listFiles (.parsed (("github.com").toList) pathname) remote =
        .ok ⟨o, r, ref, some [], extFilter (blobPaths remote.tree)⟩) ∧
    (∀ fs, subpathStage (some []) fs = fs) ∧
    (segsOf pathname = [o, r, tok] →
      parseGitHubUrl (.parsed (("github.com").toList) pathname) =
        .ok ⟨o, r, none, some []⟩ ∧
      listFiles (.parsed (("github.com").toList) pathname) remote =
        .ok ⟨o, r, remote.default_branch, some [],
          extFilter (blobPaths remote.tree)⟩) := by
  refine ⟨?_, fun fs => by simp [subpathStage], ?_⟩
  · intro hs
    have href : ref ≠ [] := mem_segsOf_ne_nil pathname ref (by rw [hs]; simp)
    have hp : parseGitHubUrl (.parsed (("github.com").toList) pathname) =
        .ok ⟨o, r, some ref, some []⟩ := by
      rcases htok with rfl | rfl <;>
        simp [parseGitHubUrl, hs, parseSegs, joinSlash]
    refine ⟨hp, ?_⟩
    simp only [listFiles]
    rw [hp]
    simp [href, subpathStage]
  · intro hs
    have hp : parseGitHubUrl (.parsed (("github.com").toList) pathname) =
        .ok ⟨o, r, none, some []⟩ := by
      rcases htok with rfl | rfl <;>
        simp [parseGitHubUrl, hs, parseSegs, joinSlash]
    refine ⟨hp, ?_⟩
    simp only [listFiles]
    rw [hp]
    simp [subpathStage]

/-- Witness for C10 at `/o/r/tree/main`, `/o/r/blob/main`, `/o/r/tree` and
`/o/r/blob` over a one-blob tree. -/
theorem tree_edge_cases_C10_witness :
    listFiles (.parsed (("github.com").toList) (("/o/r/tree/main").toList))
        ⟨("dev").toList, [⟨("a.ts").toList, ("blob").toList⟩]⟩ =
      .ok ⟨("o").toList, ("r").toList, ("main").toList, some [],
        extFilter (blobPaths [⟨("a.ts").toList, ("blob").toList⟩])⟩ ∧
    parseGitHubUrl (.parsed (("github.com").toList) (("/o/r/blob/main").toList)) =
      .ok ⟨("o").toList, ("r").toList, some (("main").toList), some []⟩ ∧
    listFiles (.parsed (("github.com").toList) (("/o/r/blob/main").toList))
        ⟨("dev").toList, [⟨("a.ts").toList, ("blob").toList⟩]⟩ =
      .ok ⟨("o").toList, ("r").toList, ("main").toList, some [],
        extFilter (blobPaths [⟨("a.ts").toList, ("blob").toList⟩])⟩ ∧
    listFiles (.parsed (("github.com").toList) (("/o/r/tree").toList))
        ⟨("dev").toList, [⟨("a.ts").toList, ("blob").toList⟩]⟩ =
      .ok ⟨("o").toList, ("r").toList, ("dev").toList, some [],
        extFilter (blobPaths [⟨("a.ts").toList, ("blob").toList⟩])⟩ ∧
    listFiles (.parsed (("github.com").toList) (("/o/r/blob").toList))
        ⟨("dev").toList, [⟨("a.ts").toList, ("blob").toList⟩]⟩ =
      .ok ⟨("o").toList, ("r").toList, ("dev").toList, some [],
        extFilter (blobPaths [⟨("a.ts").toList, ("blob").toList⟩])⟩ := by
  have hblob := (tree_edge_cases_C10 (("/o/r/blob/main").toList) (("o").toList)
    (("r").toList) (("main").toList) (("blob").toList)
    ⟨("dev").toList, [⟨("a.ts").toList, ("blob").toList⟩]⟩
    (Or.inr rfl)).1 (by decide)
  refine ⟨?_, hblob.1, hblob.2, ?_, ?_⟩
  · exact ((tree_edge_cases_C10 (("/o/r/tree/main").toList) (("o").toList)
      (("r").toList) (("main").toList) (("tree").toList)
      ⟨("dev").toList, [⟨("a.ts").toList, ("blob").toList⟩]⟩
      (Or.inl rfl)).1 (by decide)).2
  · exact ((tree_edge_cases_C10 (("/o/r/tree").toList) (("o").toList)
      (("r").toList) [] (("tree").toList) ⟨("dev").toList,
        [⟨("a.ts").toList, ("blob").toList⟩]⟩ (Or.inl rfl)).2.2 (by decide)).2
  · exact ((tree_edge_cases_C10 (("/o/r/blob").toList) (("o").toList)
      (("r").toList) [] (("blob").toList) ⟨("dev").toList,
        [⟨("a.ts").toList, ("blob").toList⟩]⟩ (Or.inr rfl)).2.2 (by decide)).2

end CodeAI
